import Mathlib

/-!
Shallow embedding of `src/bin/filter_fasta_by_list.py`.

Strings are modelled as `List Char`; Python character classes are modelled
over ASCII (the regex classes `[A-Z]` and `\d`, `str.isalpha`, and the
whitespace set of `str.strip`/`str.split`), which is the character range the
tool's accession data lives in.

The regular expression `[A-Z]{1,3}_\d+\.\d+` (module constant ACCESSION_RE)
is embedded by `reSearch`, the leftmost-match semantics of Python's
`re.search`: starting positions are tried left to right, and at a position
the greedy quantifiers are tried largest first.  For this particular
pattern greediness needs no deeper backtracking: at a given position at
most one letter count `k` can be followed by `_` (the letter block cannot
contain `_`), and a digit run followed by `.` is forced to be the maximal
run (giving back a digit re-reads a digit, never `.`).  `matchAt` therefore
tries the letter counts 3, 2, 1 in order and consumes maximal digit runs.
-/

/-- Whitespace as stripped by Python's `str.strip()` / `str.split()`
(ASCII fragment). -/
def pyIsSpace (c : Char) : Bool :=
  c == ' ' || c == '\t' || c == '\n' || c == '\r' || c == '\x0b' || c == '\x0c'

/-- Python `s.strip()` on the right end only. -/
def dropRightWhile (p : Char → Bool) (s : List Char) : List Char :=
  (s.reverse.dropWhile p).reverse

/-- Python `s.strip()`: whitespace removed from both ends. -/
def pyStrip (s : List Char) : List Char :=
  dropRightWhile pyIsSpace (s.dropWhile pyIsSpace)

/-- Python `s.rstrip("\n")`. -/
def pyRstripNl (s : List Char) : List Char :=
  dropRightWhile (fun c => c == '\n') s

/-- Python `s.strip("|")`. -/
def stripBar (s : List Char) : List Char :=
  dropRightWhile (fun c => c == '|') (s.dropWhile (fun c => c == '|'))

/-- Python `s.replace(" ", "_")` (single-character replacement is a map). -/
def underscoreSpaces (s : List Char) : List Char :=
  s.map (fun c => if c == ' ' then '_' else c)

/-- Python `s.split(".")[0]`: the text before the first `.` (all of `s`
when there is no dot). -/
def preDot (s : List Char) : List Char :=
  s.takeWhile (fun c => !(c == '.'))

/-- Python `s.split()` with fuel; each round consumes at least one
character, so `s.length` rounds always suffice. -/
def pySplitF : Nat → List Char → List (List Char)
  | 0, _ => []
  | fuel + 1, s =>
    match s.dropWhile pyIsSpace with
    | [] => []
    | c :: t =>
      (c :: t).takeWhile (fun x => !pyIsSpace x)
        :: pySplitF fuel ((c :: t).dropWhile (fun x => !pyIsSpace x))

/-- Python `s.split()`: split on whitespace runs, no empty tokens. -/
def pySplit (s : List Char) : List (List Char) :=
  pySplitF s.length s

/-- Python `s.isalpha()` (ASCII fragment): nonempty and all letters. -/
def pyIsAlpha (s : List Char) : Bool :=
  decide (s ≠ []) && s.all Char.isAlpha

/-- One attempt of the pattern `[A-Z]{1,3}_\d+\.\d+` at the start of `s`,
with the letter count fixed to `k`: `k` uppercase letters, `_`, a maximal
nonempty digit run, `.`, a maximal nonempty digit run. -/
def matchAtK (k : Nat) (s : List Char) : Option (List Char) :=
  if ((s.take k).length = k ∧ (s.take k).all Char.isUpper
      ∧ (s.drop k).head? = some '_' : Prop) then
    if ((s.drop k).tail.takeWhile Char.isDigit ≠ []
        ∧ ((s.drop k).tail.dropWhile Char.isDigit).head? = some '.'
        ∧ ((s.drop k).tail.dropWhile Char.isDigit).tail.takeWhile
            Char.isDigit ≠ [] : Prop) then
      some (s.take k ++ '_' :: ((s.drop k).tail.takeWhile Char.isDigit
        ++ '.' :: ((s.drop k).tail.dropWhile Char.isDigit).tail.takeWhile
            Char.isDigit))
    else none
  else none

/-- The pattern tried at one starting position: greedy letter count,
largest first. -/
def matchAt (s : List Char) : Option (List Char) :=
  match matchAtK 3 s with
  | some m => some m
  | none =>
    match matchAtK 2 s with
    | some m => some m
    | none => matchAtK 1 s

/-- Python `ACCESSION_RE.search(s).group(0)` (as an `Option`): starting
positions tried left to right, first success returned. -/
def reSearch : List Char → Option (List Char)
  | [] => none
  | c :: t =>
    match matchAt (c :: t) with
    | some m => some m
    | none => reSearch t

/-- Python `re.match(r"^\d+\.\d+$", s)` as a Boolean: the whole string is
a digit run, a dot, a digit run. -/
def isVersionNumber (s : List Char) : Bool :=
  decide (s.takeWhile Char.isDigit ≠ []) &&
    (match s.dropWhile Char.isDigit with
     | '.' :: r2 => decide (r2 ≠ []) && r2.all Char.isDigit
     | _ => false)

/-- The two target sets of `parse_targets`: `(with_version, no_version)`,
modelled as duplicate-free lists. -/
def Targets : Type := List (List Char) × List (List Char)

/-- The normalization pipeline of `parse_targets._add` on a nonempty
stripped candidate: strip, spaces to underscores, the pipe branch, then
the final re-search. -/
def normalizeAcc (acc : List Char) : List Char :=
  let a1 := underscoreSpaces (pyStrip acc)
  let a2 :=
    if ('|' ∈ a1 : Prop) then
      match reSearch a1 with
      | some m => m
      | none => a1
    else a1
  match reSearch a2 with
  | some m => m
  | none => a2

/-- `parse_targets._add`: normalize the candidate and insert it into the
two sets (versioned only when the normalized form has a dot). -/
def addAcc (acc : List Char) (st : Targets) : Targets :=
  if pyStrip acc = [] then st
  else
    let n := normalizeAcc acc
    if ('.' ∈ n : Prop) then
      (List.insert n st.1, List.insert (preDot n) st.2)
    else
      (st.1, List.insert n st.2)

/-- The body of the `parse_targets` loop on one raw line: strip, skip
blank and `#` lines, then the three extraction strategies in order. -/
def processLine (raw : List Char) (st : Targets) : Targets :=
  let line := pyStrip raw
  if line = [] then st
  else if line.head? = some '#' then st
  else
    match reSearch (underscoreSpaces line) with
    | some m => addAcc m st
    | none =>
      match pySplit line with
      | t1 :: t2 :: _ =>
        if pyIsAlpha t1 && isVersionNumber t2 then addAcc (t1 ++ '_' :: t2) st
        else addAcc t1 st
      | [t1] => addAcc t1 st
      | [] => st

/-- `parse_targets`: fold the per-line step over the list file's lines. -/
def parse_targets (lines : List (List Char)) : Targets :=
  lines.foldl (fun st l => processLine l st) ([], [])

/-- Python `line.startswith(">")`. -/
def isHeaderLine (l : List Char) : Bool :=
  match l with
  | '>' :: _ => true
  | _ => false

/-- The loop of `fasta_records`: the current header (if any), the sequence
accumulated so far, and the remaining lines. -/
def fastaAux : Option (List Char) → List Char → List (List Char) →
    List (List Char × List Char)
  | hdr, seqAcc, [] =>
    match hdr with
    | some h => [(h, seqAcc)]
    | none => []
  | hdr, seqAcc, l :: ls =>
    if isHeaderLine l then
      (match hdr with
       | some h => [(h, seqAcc)]
       | none => []) ++ fastaAux (some (pyRstripNl l)) [] ls
    else
      fastaAux hdr (seqAcc ++ pyStrip l) ls

/-- `fasta_records`: stream the lines into `(header, sequence)` pairs. -/
def fasta_records (lines : List (List Char)) : List (List Char × List Char) :=
  fastaAux none [] lines

/-- Python `header[1:] if header.startswith(">") else header`. -/
def stripGt (header : List Char) : List Char :=
  match header with
  | '>' :: t => t
  | _ => header

/-- Python `h.split()[0] if h.split() else ""`. -/
def firstTok (h : List Char) : List Char :=
  match pySplit h with
  | [] => []
  | t :: _ => t

/-- `extract_header_accession`: strip a leading `>`, search the pattern,
else clean the first whitespace token and search it. -/
def extract_header_accession (header : List Char) :
    Option (List Char) × Option (List Char) :=
  let h := stripGt header
  match reSearch h with
  | some acc => (some acc, some (preDot acc))
  | none =>
    let tok := underscoreSpaces (stripBar (firstTok h))
    match reSearch tok with
    | some acc => (some acc, some (preDot acc))
    | none => (none, none)

/-- Python truthiness of an optional string: present and nonempty. -/
def truthyStr (o : Option (List Char)) : Bool :=
  match o with
  | none => false
  | some s => decide (s ≠ [])

/-- The matching decision of `filter_fasta`'s loop body for one record:
`acc_wv and acc_wv in targets_with_version`, else
`ignore_version and acc_nv and acc_nv in targets_no_version`. -/
def recordMatches (twv tnv : List (List Char)) (ignoreVersion : Bool)
    (header : List Char) : Bool :=
  let acc := extract_header_accession header
  if truthyStr acc.1 && decide (acc.1.getD [] ∈ twv) then true
  else if ignoreVersion && truthyStr acc.2 && decide (acc.2.getD [] ∈ tnv) then
    true
  else false

/-- The `(kept, total)` counters of `filter_fasta` over in-memory inputs. -/
def filter_counts (listLines fastaLines : List (List Char))
    (ignoreVersion : Bool) : Nat × Nat :=
  let tg := parse_targets listLines
  let recs := fasta_records fastaLines
  (recs.countP (fun r => recordMatches tg.1 tg.2 ignoreVersion r.1),
   recs.length)

/-- Strategy 1 of the list-line parser (spec §4.1): spaces to underscores,
then search the canonical pattern anywhere in the line. -/
def strategyOne (line : List Char) : Option (List Char) :=
  reSearch (underscoreSpaces line)

/-- Strategy 2: split into whitespace tokens; if the first is alphabetic
and the second matches `\d+\.\d+`, join them with an underscore. -/
def strategyTwo (line : List Char) : Option (List Char) :=
  match pySplit line with
  | t1 :: t2 :: _ =>
    if pyIsAlpha t1 && isVersionNumber t2 then some (t1 ++ '_' :: t2)
    else none
  | _ => none

/-- Strategy 3: the first whitespace token, when one exists. -/
def strategyThree (line : List Char) : Option (List Char) :=
  match pySplit line with
  | [] => none
  | t :: _ => some t

/-- The three strategies in order, stopping at the first success. -/
def lineCandidate (line : List Char) : Option (List Char) :=
  match strategyOne line with
  | some m => some m
  | none =>
    match strategyTwo line with
    | some m => some m
    | none => strategyThree line

/-- Concatenation of sequence fragments with no separator. -/
def seqConcat (ls : List (List Char)) : List Char :=
  ls.foldr (fun a b => a ++ b) []

/-- Record-reader contract as the spec states it (§4.2): each `>` line
opens a record whose sequence is the stripped concatenation of the
following non-header lines; lines before the first header are dropped. -/
def splitRecords : List (List Char) → List (List Char × List Char)
  | [] => []
  | l :: ls =>
    if isHeaderLine l then
      (pyRstripNl l,
        seqConcat ((ls.takeWhile (fun x => !isHeaderLine x)).map pyStrip))
        :: splitRecords (ls.dropWhile (fun x => !isHeaderLine x))
    else splitRecords ls
termination_by l => l.length
decreasing_by
  all_goals
    simp only [List.length_cons]
    first
    | exact Nat.lt_succ_of_le (List.Sublist.length_le (List.dropWhile_sublist _))
    | exact Nat.lt_succ_of_le (Nat.le_refl _)

/-- The fallible I/O skeleton of `filter_fasta` (lines 139-163): the list
file is read first (`parse_targets`), then the output handle is opened,
then the FASTA file; any failure propagates as an exception. -/
def filterFastaIO (fastaFile listFile : Option (List (List Char)))
    (outWritable : Bool) (ignoreVersion : Bool) : Except Unit (Nat × Nat) :=
  match listFile with
  | none => Except.error ()
  | some ll =>
    if outWritable = false then Except.error ()
    else
      match fastaFile with
      | none => Except.error ()
      | some fl => Except.ok (filter_counts ll fl ignoreVersion)

/-- `main` (lines 185-192): the summary line is printed only when
`filter_fasta` returns; an exception aborts before it. -/
def mainSummary (fastaFile listFile : Option (List (List Char)))
    (outWritable : Bool) (ignoreVersion : Bool) : Option (Nat × Nat) :=
  match filterFastaIO fastaFile listFile outWritable ignoreVersion with
  | Except.error _ => none
  | Except.ok kt => some kt

/-- A string that is already a canonical accession
`PREFIX_DIGITS.VERSION`: one to three uppercase letters, `_`, a nonempty
digit run, `.`, a nonempty digit run. -/
def isCanonicalAcc (s : List Char) : Prop :=
  ∃ ls ds vs : List Char,
    s = ls ++ '_' :: (ds ++ '.' :: vs) ∧
    ls ≠ [] ∧ ls.length ≤ 3 ∧ (∀ c ∈ ls, c.isUpper = true) ∧
    ds ≠ [] ∧ (∀ c ∈ ds, c.isDigit = true) ∧
    vs ≠ [] ∧ (∀ c ∈ vs, c.isDigit = true)

/-! ### Character-class facts -/

lemma beq_space_eq_false {c : Char} (h : pyIsSpace c = false) :
    (c == ' ') = false := by
  simp only [pyIsSpace, Bool.or_eq_false_iff] at h
  exact h.1.1.1.1.1

lemma isUpper_not_space {c : Char} (h : c.isUpper = true) :
    pyIsSpace c = false := by
  rcases hb : pyIsSpace c with _ | _
  · rfl
  · exfalso
    simp only [pyIsSpace, Bool.or_eq_true, beq_iff_eq] at hb
    rcases hb with ((((rfl | rfl) | rfl) | rfl) | rfl) | rfl <;>
      exact absurd h (by decide)

lemma isDigit_not_space {c : Char} (h : c.isDigit = true) :
    pyIsSpace c = false := by
  rcases hb : pyIsSpace c with _ | _
  · rfl
  · exfalso
    simp only [pyIsSpace, Bool.or_eq_true, beq_iff_eq] at hb
    rcases hb with ((((rfl | rfl) | rfl) | rfl) | rfl) | rfl <;>
      exact absurd h (by decide)

lemma isUpper_beq_dot_eq_false {c : Char} (h : c.isUpper = true) :
    (c == '.') = false := by
  rcases hb : c == '.' with _ | _
  · rfl
  · exact absurd h (by rw [ beq_iff_eq.mp hb]; decide)

/-! ### takeWhile / dropWhile facts -/

lemma takeWhile_all_eq {p : Char → Bool} {xs : List Char}
    (h : ∀ a ∈ xs, p a = true) : xs.takeWhile p = xs := by
  induction xs with
  | nil => rfl
  | cons x t ih =>
    rw [List.takeWhile_cons, h x (by simp), ih (fun a ha => h a (by simp [ha]))]
    simp

lemma takeWhile_append_cons {p : Char → Bool} {xs : List Char} {c : Char}
    {ys : List Char} (hall : ∀ a ∈ xs, p a = true) (hc : p c = false) :
    (xs ++ c :: ys).takeWhile p = xs := by
  induction xs with
  | nil => simp [List.takeWhile_cons, hc]
  | cons x t ih =>
    have hx := hall x (by simp)
    simp only [List.cons_append, List.takeWhile_cons, hx, if_true]
    rw [ih (fun a ha => hall a (by simp [ha]))]

lemma dropWhile_append_cons {p : Char → Bool} {xs : List Char} {c : Char}
    {ys : List Char} (hall : ∀ a ∈ xs, p a = true) (hc : p c = false) :
    (xs ++ c :: ys).dropWhile p = c :: ys := by
  induction xs with
  | nil => simp [List.dropWhile_cons, hc]
  | cons x t ih =>
    have hx := hall x (by simp)
    simp only [List.cons_append, List.dropWhile_cons, hx, if_true]
    exact ih (fun a ha => hall a (by simp [ha]))

lemma takeWhile_ne_nil_append {p : Char → Bool} {xs : List Char}
    (ys : List Char) (h : xs.takeWhile p ≠ []) :
    (xs ++ ys).takeWhile p ≠ [] := by
  cases xs with
  | nil => simp at h
  | cons x t =>
    rcases hx : p x with _ | _
    · rw [List.takeWhile_cons, hx] at h
      simp at h
    · simp [List.takeWhile_cons, hx]

lemma dropWhile_head_false {p : Char → Bool} {l : List Char} {c : Char}
    {t : List Char} (h : l.dropWhile p = c :: t) : p c = false := by
  induction l with
  | nil => simp at h
  | cons x xs ih =>
    rcases hx : p x with _ | _
    · rw [List.dropWhile_cons, hx] at h
      simp only [Bool.false_eq_true, if_false, List.cons.injEq] at h
      rw [← h.1]
      exact hx
    · rw [List.dropWhile_cons, hx] at h
      simp only [if_true] at h
      exact ih h

lemma dropWhile_eq_self_of_head {p : Char → Bool} {l : List Char}
    (h : ∀ c ∈ l, p c = false) : l.dropWhile p = l := by
  cases l with
  | nil => rfl
  | cons x t => rw [List.dropWhile_cons, h x (by simp)]; simp

lemma dropRightWhile_eq_self {p : Char → Bool} {l : List Char}
    (h : ∀ c ∈ l, p c = false) : dropRightWhile p l = l := by
  unfold dropRightWhile
  rw [dropWhile_eq_self_of_head (fun c hc => h c (List.mem_reverse.mp hc)),
    List.reverse_reverse]

lemma pyStrip_eq_self {l : List Char} (h : ∀ c ∈ l, pyIsSpace c = false) :
    pyStrip l = l := by
  unfold pyStrip
  rw [dropWhile_eq_self_of_head h, dropRightWhile_eq_self h]

lemma underscoreSpaces_eq_self {l : List Char}
    (h : ∀ c ∈ l, (c == ' ') = false) : underscoreSpaces l = l := by
  induction l with
  | nil => rfl
  | cons x t ih =>
    unfold underscoreSpaces at ih ⊢
    rw [List.map_cons, h x (by simp), ih (fun c hc => h c (by simp [hc]))]
    simp

/-- A list splits around `dropRightWhile`: the removed part is the
reversed matching suffix. -/
lemma dropRightWhile_append {p : Char → Bool} (l : List Char) :
    l = dropRightWhile p l ++ (l.reverse.takeWhile p).reverse := by
  unfold dropRightWhile
  rw [← List.reverse_append, List.takeWhile_append_dropWhile]
  exact (List.reverse_reverse l).symm

/-! ### Facts about one pattern attempt (`matchAtK`) -/

lemma matchAtK_eq_some {k : Nat} {s m : List Char}
    (h : matchAtK k s = some m) :
    ∃ ds r2 : List Char,
      (s.take k).length = k ∧ (s.take k).all Char.isUpper = true ∧
      s.drop k = '_' :: (ds ++ '.' :: r2) ∧
      ds ≠ [] ∧ (∀ a ∈ ds, a.isDigit = true) ∧
      r2.takeWhile Char.isDigit ≠ [] ∧
      m = s.take k ++ '_' :: (ds ++ '.' :: r2.takeWhile Char.isDigit) := by
  unfold matchAtK at h
  split at h
  case isFalse => exact absurd h (by simp)
  case isTrue h1 =>
    split at h
    case isFalse => exact absurd h (by simp)
    case isTrue h2 =>
      obtain ⟨hlen, hup, hus⟩ := h1
      obtain ⟨hds, hdot, hvs⟩ := h2
      have hdk : s.drop k = '_' :: (s.drop k).tail := by
        cases hsd : s.drop k with
        | nil => rw [hsd] at hus; simp at hus
        | cons c t =>
          rw [hsd] at hus
          simp only [List.head?_cons, Option.some.injEq] at hus
          rw [hus]
          rfl
      have hr1 : (s.drop k).tail.dropWhile Char.isDigit =
          '.' :: ((s.drop k).tail.dropWhile Char.isDigit).tail := by
        cases hr : (s.drop k).tail.dropWhile Char.isDigit with
        | nil => rw [hr] at hdot; simp at hdot
        | cons c t =>
          rw [hr] at hdot
          simp only [List.head?_cons, Option.some.injEq] at hdot
          rw [hdot]
          rfl
      refine ⟨(s.drop k).tail.takeWhile Char.isDigit,
        ((s.drop k).tail.dropWhile Char.isDigit).tail,
        hlen, hup, ?_, hds,
        fun a ha => List.mem_takeWhile_imp ha, hvs,
        (Option.some.inj h).symm⟩
      conv_lhs => rw [hdk]
      congr 1
      conv_lhs =>
        rw [← List.takeWhile_append_dropWhile Char.isDigit (s.drop k).tail,
          hr1]

lemma matchAtK_intro {k : Nat} {s ds r2 : List Char}
    (hlen : (s.take k).length = k) (hall : (s.take k).all Char.isUpper = true)
    (hdrop : s.drop k = '_' :: (ds ++ '.' :: r2))
    (hds : ds ≠ []) (hdig : ∀ a ∈ ds, a.isDigit = true)
    (hvs : r2.takeWhile Char.isDigit ≠ []) :
    matchAtK k s =
      some (s.take k ++ '_' :: (ds ++ '.' :: r2.takeWhile Char.isDigit)) := by
  have htail : (s.drop k).tail = ds ++ '.' :: r2 := by
    rw [hdrop, List.tail_cons]
  have htw : (ds ++ '.' :: r2).takeWhile Char.isDigit = ds :=
    takeWhile_append_cons hdig (by decide)
  have hdw : (ds ++ '.' :: r2).dropWhile Char.isDigit = '.' :: r2 :=
    dropWhile_append_cons hdig (by decide)
  unfold matchAtK
  rw [if_pos ?hc1]
  case hc1 =>
    refine ⟨hlen, hall, ?_⟩
    rw [hdrop, List.head?_cons]
  rw [if_pos ?hc2]
  case hc2 =>
    rw [htail, htw, hdw, List.tail_cons]
    exact ⟨hds, rfl, hvs⟩
  rw [htail, htw, hdw, List.tail_cons]

lemma matchAtK_none_of_underscore {s rest : List Char} {k j : Nat}
    (hdrop : s.drop k = '_' :: rest) (hkj : k < j) : matchAtK j s = none := by
  have hk : k < s.length := by
    by_contra hk
    push_neg at hk
    rw [List.drop_eq_nil_of_le hk] at hdrop
    exact absurd hdrop (by simp)
  by_cases hcond : ((s.take j).length = j ∧ ((s.take j).all Char.isUpper : Prop)
      ∧ (s.drop j).head? = some '_')
  · exfalso
    obtain ⟨hlen, hall, _⟩ := hcond
    have hmem : '_' ∈ s.take j := by
      have hs : s = s.take k ++ '_' :: rest := by
        conv_lhs => rw [← List.take_append_drop k s]
        rw [hdrop]
      have hklen : (s.take k).length = k := by
        rw [List.length_take]
        omega
      conv_lhs => rw [hs]
      rw [List.take_append_eq_append_take, hklen]
      have hj : j - k = (j - k - 1) + 1 := by omega
      rw [hj, List.take_succ_cons]
      exact List.mem_append.mpr (Or.inr (by simp))
    exact absurd (List.all_eq_true.mp hall '_' hmem) (by decide)
  · unfold matchAtK
    rw [if_neg hcond]

lemma drop_append_underscore {t rest : List Char} {k : Nat}
    (ext : List Char) (hdrop : t.drop k = '_' :: rest) :
    (t ++ ext).drop k = '_' :: (rest ++ ext) := by
  have hk : k ≤ t.length := by
    by_contra hk
    push_neg at hk
    rw [List.drop_eq_nil_of_le (le_of_lt hk)] at hdrop
    exact absurd hdrop (by simp)
  rw [List.drop_append_of_le_length hk, hdrop, List.cons_append]

lemma matchAtK_append {k : Nat} {t m : List Char} (ext : List Char)
    (h : matchAtK k t = some m) : ∃ m2, matchAtK k (t ++ ext) = some m2 := by
  obtain ⟨ds, r2, hlen, hall, hdrop, hds, hdig, hvs, _⟩ := matchAtK_eq_some h
  have hk : k ≤ t.length := by
    have := List.length_take k t
    omega
  have htake : (t ++ ext).take k = t.take k := List.take_append_of_le_length hk
  have hdrop2 : (t ++ ext).drop k = '_' :: (ds ++ '.' :: (r2 ++ ext)) := by
    rw [drop_append_underscore ext hdrop]
    simp [List.append_assoc]
  refine ⟨_, matchAtK_intro ?_ ?_ hdrop2 hds hdig
    (takeWhile_ne_nil_append ext hvs)⟩
  · rw [htake]
    exact hlen
  · rw [htake]
    exact hall

lemma matchAt_nil : matchAt [] = none := by decide

lemma matchAt_append {t m : List Char} (ext : List Char)
    (h : matchAt t = some m) : ∃ m2, matchAt (t ++ ext) = some m2 := by
  unfold matchAt at h ⊢
  cases h3 : matchAtK 3 t with
  | some m3 =>
    obtain ⟨m2, hm2⟩ := matchAtK_append ext h3
    rw [hm2]
    exact ⟨m2, rfl⟩
  | none =>
    rw [h3] at h
    cases h2 : matchAtK 2 t with
    | some m2' =>
      obtain ⟨ds, r2, _, _, hdrop, _, _, _, _⟩ := matchAtK_eq_some h2
      have h3e : matchAtK 3 (t ++ ext) = none :=
        matchAtK_none_of_underscore (drop_append_underscore ext hdrop)
          (by omega)
      obtain ⟨m2, hm2⟩ := matchAtK_append ext h2
      rw [h3e, hm2]
      exact ⟨m2, rfl⟩
    | none =>
      rw [h2] at h
      obtain ⟨ds, r2, _, _, hdrop, _, _, _, _⟩ := matchAtK_eq_some h
      have h3e : matchAtK 3 (t ++ ext) = none :=
        matchAtK_none_of_underscore (drop_append_underscore ext hdrop)
          (by omega)
      have h2e : matchAtK 2 (t ++ ext) = none :=
        matchAtK_none_of_underscore (drop_append_underscore ext hdrop)
          (by omega)
      obtain ⟨m2, hm2⟩ := matchAtK_append ext h
      rw [h3e, h2e, hm2]
      exact ⟨m2, rfl⟩

/-! ### Facts about the leftmost search (`reSearch`) -/

lemma reSearch_cons_of_matchAt {c : Char} {t m : List Char}
    (h : matchAt (c :: t) = some m) : reSearch (c :: t) = some m := by
  unfold reSearch
  rw [h]

lemma reSearch_none_matchAt {s : List Char} (h : reSearch s = none) :
    ∀ i, matchAt (s.drop i) = none := by
  induction s with
  | nil => intro i; rw [List.drop_nil]; exact matchAt_nil
  | cons c t ih =>
    unfold reSearch at h
    intro i
    cases hm : matchAt (c :: t) with
    | some m => rw [hm] at h; exact absurd h (by simp)
    | none =>
      rw [hm] at h
      cases i with
      | zero => rw [List.drop_zero]; exact hm
      | succ n => rw [List.drop_succ_cons]; exact ih h n

lemma reSearch_some_drop {t m : List Char} (h : reSearch t = some m) :
    ∃ i, i ≤ t.length ∧ matchAt (t.drop i) = some m := by
  induction t with
  | nil => exact absurd h (by simp [reSearch])
  | cons c tt ih =>
    unfold reSearch at h
    cases hm : matchAt (c :: tt) with
    | some m1 =>
      rw [hm] at h
      simp only [Option.some.injEq] at h
      subst h
      exact ⟨0, by simp, by rw [List.drop_zero]; exact hm⟩
    | none =>
      rw [hm] at h
      obtain ⟨i, hi, hmi⟩ := ih h
      exact ⟨i + 1, by simp; omega, by rw [List.drop_succ_cons]; exact hmi⟩

lemma reSearch_append_right_none {t : List Char} (ext : List Char)
    (h : reSearch (t ++ ext) = none) : reSearch t = none := by
  cases hr : reSearch t with
  | none => rfl
  | some m =>
    exfalso
    obtain ⟨i, hi, hmi⟩ := reSearch_some_drop hr
    obtain ⟨m2, hm2⟩ := matchAt_append ext hmi
    rw [← List.drop_append_of_le_length hi] at hm2
    have := reSearch_none_matchAt h i
    rw [this] at hm2
    exact absurd hm2 (by simp)

lemma reSearch_suffix_none {x : List Char} (a : List Char)
    (h : reSearch (a ++ x) = none) : reSearch x = none := by
  induction a with
  | nil => exact h
  | cons c a2 ih =>
    rw [List.cons_append] at h
    unfold reSearch at h
    cases hm : matchAt (c :: (a2 ++ x)) with
    | some m => rw [hm] at h; exact absurd h (by simp)
    | none => rw [hm] at h; exact ih h

lemma reSearch_infix_none {t : List Char} (a b : List Char)
    (h : reSearch (a ++ t ++ b) = none) : reSearch t = none := by
  rw [List.append_assoc] at h
  exact reSearch_append_right_none b (reSearch_suffix_none a h)

/-! ### The shape of a successful match -/

lemma matchAtK_head_upper {k : Nat} {s m : List Char} (hk : k ≠ 0)
    (h : matchAtK k s = some m) :
    ∃ c t, m = c :: t ∧ c.isUpper = true := by
  obtain ⟨ds, r2, hlen, hall, _, _, _, _, hm⟩ := matchAtK_eq_some h
  cases htk : s.take k with
  | nil =>
    rw [htk] at hlen
    exact absurd hlen.symm (by simpa using hk)
  | cons c t0 =>
    refine ⟨c, t0 ++ '_' :: (ds ++ '.' :: r2.takeWhile Char.isDigit), ?_, ?_⟩
    · rw [hm, htk, List.cons_append]
    · rw [htk] at hall
      exact List.all_eq_true.mp hall c (by simp)

lemma matchAt_head_upper {s m : List Char} (h : matchAt s = some m) :
    ∃ c t, m = c :: t ∧ c.isUpper = true := by
  unfold matchAt at h
  cases h3 : matchAtK 3 s with
  | some m3 =>
    rw [h3] at h
    simp only [Option.some.injEq] at h
    subst h
    exact matchAtK_head_upper (by decide) h3
  | none =>
    rw [h3] at h
    cases h2 : matchAtK 2 s with
    | some m2 =>
      rw [h2] at h
      simp only [Option.some.injEq] at h
      subst h
      exact matchAtK_head_upper (by decide) h2
    | none =>
      rw [h2] at h
      exact matchAtK_head_upper (by decide) h

lemma reSearch_head_upper {s m : List Char} (h : reSearch s = some m) :
    ∃ c t, m = c :: t ∧ c.isUpper = true := by
  obtain ⟨i, _, hmi⟩ := reSearch_some_drop h
  exact matchAt_head_upper hmi

lemma preDot_cons_ne_nil {c : Char} {t : List Char}
    (h : (c == '.') = false) : preDot (c :: t) ≠ [] := by
  simp [preDot, List.takeWhile_cons, h]

/-- Either no accession is extracted at all, or both components are set
from one nonempty match that starts with an uppercase letter. -/
lemma extract_cases (header : List Char) :
    extract_header_accession header = (none, none) ∨
    ∃ acc c t, extract_header_accession header = (some acc, some (preDot acc))
      ∧ acc = c :: t ∧ c.isUpper = true := by
  cases h1 : reSearch (stripGt header) with
  | some acc =>
    right
    obtain ⟨c, t, rfl, hup⟩ := reSearch_head_upper h1
    refine ⟨_, c, t, ?_, rfl, hup⟩
    simp only [extract_header_accession, h1]
  | none =>
    cases h2 : reSearch (underscoreSpaces (stripBar (firstTok (stripGt header)))) with
    | some acc =>
      right
      obtain ⟨c, t, rfl, hup⟩ := reSearch_head_upper h2
      refine ⟨_, c, t, ?_, rfl, hup⟩
      simp only [extract_header_accession, h1, h2]
    | none =>
      left
      simp only [extract_header_accession, h1, h2]

/-! ### The first whitespace token is an infix of the line -/

lemma firstTok_eq (h : List Char) :
    firstTok h = (h.dropWhile pyIsSpace).takeWhile (fun x => !pyIsSpace x) := by
  unfold firstTok pySplit
  cases hl : h.length with
  | zero =>
    obtain rfl := List.length_eq_zero.mp hl
    rfl
  | succ n =>
    simp only [pySplitF]
    cases hd : h.dropWhile pyIsSpace with
    | nil => simp [hd]
    | cons c t => simp [hd]

lemma firstTok_parts (h : List Char) :
    (∃ a b, h = a ++ firstTok h ++ b) ∧
    ∀ c ∈ firstTok h, pyIsSpace c = false := by
  constructor
  · refine ⟨h.takeWhile pyIsSpace,
      (h.dropWhile pyIsSpace).dropWhile (fun x => !pyIsSpace x), ?_⟩
    rw [firstTok_eq, List.append_assoc,
      List.takeWhile_append_dropWhile, List.takeWhile_append_dropWhile]
  · intro c hc
    rw [firstTok_eq] at hc
    simpa using List.mem_takeWhile_imp hc

lemma stripBar_parts (t : List Char) : ∃ a b, t = a ++ stripBar t ++ b := by
  refine ⟨t.takeWhile (fun c => c == '|'),
    ((t.dropWhile (fun c => c == '|')).reverse.takeWhile
      (fun c => c == '|')).reverse, ?_⟩
  rw [List.append_assoc]
  conv_lhs =>
    rw [← List.takeWhile_append_dropWhile (fun c => c == '|') t]
  congr 1
  exact dropRightWhile_append _

lemma mem_stripBar {t : List Char} {c : Char} (h : c ∈ stripBar t) :
    c ∈ t := by
  obtain ⟨a, b, ht⟩ := stripBar_parts t
  rw [ht]
  exact List.mem_append.mpr (Or.inl (List.mem_append.mpr (Or.inr h)))

/-! ### Heads of stripped lines and token lists -/

lemma pyStrip_head_not_space {raw : List Char} {c : Char} {t : List Char}
    (h : pyStrip raw = c :: t) : pyIsSpace c = false := by
  unfold pyStrip at h
  have hd := @dropRightWhile_append pyIsSpace (raw.dropWhile pyIsSpace)
  rw [h, List.cons_append] at hd
  exact dropWhile_head_false hd

lemma pySplit_ne_nil_of_head {c : Char} {t : List Char}
    (hc : pyIsSpace c = false) : pySplit (c :: t) ≠ [] := by
  unfold pySplit
  simp only [List.length_cons, pySplitF, List.dropWhile_cons, hc]
  simp

lemma lineCandidate_isSome {c : Char} {t : List Char}
    (hc : pyIsSpace c = false) : ∃ m, lineCandidate (c :: t) = some m := by
  unfold lineCandidate
  cases h1 : strategyOne (c :: t) with
  | some m => exact ⟨m, rfl⟩
  | none =>
    cases h2 : strategyTwo (c :: t) with
    | some m => exact ⟨m, rfl⟩
    | none =>
      unfold strategyThree
      cases h3 : pySplit (c :: t) with
      | nil => exact absurd h3 (pySplit_ne_nil_of_head hc)
      | cons t1 r => exact ⟨t1, rfl⟩

/-! ### The per-line step as the three strategies -/

lemma processLine_eq (raw : List Char) (st : Targets) :
    processLine raw st =
      (if pyStrip raw = [] ∨ (pyStrip raw).head? = some '#' then st
       else
         match lineCandidate (pyStrip raw) with
         | some c => addAcc c st
         | none => st) := by
  simp only [processLine, lineCandidate, strategyOne, strategyTwo,
    strategyThree]
  by_cases h1 : pyStrip raw = []
  · rw [if_pos h1, if_pos (Or.inl h1)]
  · rw [if_neg h1]
    by_cases h2 : (pyStrip raw).head? = some '#'
    · rw [if_pos h2, if_pos (Or.inr h2)]
    · rw [if_neg h2, if_neg (not_or.mpr ⟨h1, h2⟩)]
      cases hr : reSearch (underscoreSpaces (pyStrip raw)) with
      | some m => rfl
      | none =>
        cases hs : pySplit (pyStrip raw) with
        | nil => rfl
        | cons t1 rest =>
          cases rest with
          | nil => rfl
          | cons t2 r =>
            cases hif : pyIsAlpha t1 && isVersionNumber t2 with
            | true => simp [hif]
            | false => simp [hif]

/-! ### What `addAcc` does to the two sets -/

lemma addAcc_nil {acc : List Char} (st : Targets)
    (h : pyStrip acc = []) : addAcc acc st = st := by
  unfold addAcc
  rw [if_pos h]

lemma addAcc_dot {acc : List Char} (st : Targets) (hne : pyStrip acc ≠ [])
    (hdot : '.' ∈ normalizeAcc acc) :
    addAcc acc st = (List.insert (normalizeAcc acc) st.1,
      List.insert (preDot (normalizeAcc acc)) st.2) := by
  simp only [addAcc]
  rw [if_neg hne, if_pos hdot]

lemma addAcc_nodot {acc : List Char} (st : Targets)
    (hne : pyStrip acc ≠ []) (hdot : '.' ∉ normalizeAcc acc) :
    addAcc acc st = (st.1, List.insert (normalizeAcc acc) st.2) := by
  simp only [addAcc]
  rw [if_neg hne, if_neg hdot]

lemma addAcc_inv {acc : List Char} {st : Targets}
    (h : ∀ v ∈ st.1, preDot v ∈ st.2) :
    ∀ v ∈ (addAcc acc st).1, preDot v ∈ (addAcc acc st).2 := by
  by_cases hne : pyStrip acc = []
  · rw [addAcc_nil st hne]
    exact h
  · by_cases hdot : '.' ∈ normalizeAcc acc
    · rw [addAcc_dot st hne hdot]
      intro v hv
      rcases List.mem_insert_iff.mp hv with rfl | hv2
      · exact List.mem_insert_iff.mpr (Or.inl rfl)
      · exact List.mem_insert_iff.mpr (Or.inr (h v hv2))
    · rw [addAcc_nodot st hne hdot]
      intro v hv
      exact List.mem_insert_iff.mpr (Or.inr (h v hv))

lemma processLine_inv {raw : List Char} {st : Targets}
    (h : ∀ v ∈ st.1, preDot v ∈ st.2) :
    ∀ v ∈ (processLine raw st).1, preDot v ∈ (processLine raw st).2 := by
  rw [processLine_eq]
  by_cases h1 : pyStrip raw = [] ∨ (pyStrip raw).head? = some '#'
  · rw [if_pos h1]
    exact h
  · rw [if_neg h1]
    cases lineCandidate (pyStrip raw) with
    | some c => exact addAcc_inv h
    | none => exact h

lemma parse_inv (lines : List (List Char)) :
    ∀ st : Targets, (∀ v ∈ st.1, preDot v ∈ st.2) →
      ∀ v ∈ (lines.foldl (fun s l => processLine l s) st).1,
        preDot v ∈ (lines.foldl (fun s l => processLine l s) st).2 := by
  induction lines with
  | nil =>
    intro st h
    simpa using h
  | cons l ls ih =>
    intro st h
    rw [List.foldl_cons]
    exact ih _ (processLine_inv h)

lemma addAcc_fst {acc : List Char} {st : Targets}
    (hdot : '.' ∉ normalizeAcc acc) : (addAcc acc st).1 = st.1 := by
  by_cases hne : pyStrip acc = []
  · rw [addAcc_nil st hne]
  · rw [addAcc_nodot st hne hdot]

lemma processLine_fst {raw : List Char} {st : Targets}
    (h : ∀ c, lineCandidate (pyStrip raw) = some c → '.' ∉ normalizeAcc c) :
    (processLine raw st).1 = st.1 := by
  rw [processLine_eq]
  by_cases h1 : pyStrip raw = [] ∨ (pyStrip raw).head? = some '#'
  · rw [if_pos h1]
  · rw [if_neg h1]
    cases hc : lineCandidate (pyStrip raw) with
    | some c => exact addAcc_fst (h c hc)
    | none => rfl

lemma parse_fst (lines : List (List Char))
    (h : ∀ l ∈ lines, ∀ c, lineCandidate (pyStrip l) = some c →
      '.' ∉ normalizeAcc c) :
    ∀ st : Targets, (lines.foldl (fun s l => processLine l s) st).1 = st.1 := by
  induction lines with
  | nil => intro st; rfl
  | cons l ls ih =>
    intro st
    rw [List.foldl_cons,
      ih (fun x hx => h x (by simp [hx])) _]
    exact processLine_fst (h l (by simp))

/-! ### The record reader against its contract -/

lemma seqConcat_cons (x : List Char) (xs : List (List Char)) :
    seqConcat (x :: xs) = x ++ seqConcat xs := rfl

lemma fastaAux_some (ls : List (List Char)) :
    ∀ (h : List Char) (seqAcc : List Char),
      fastaAux (some h) seqAcc ls =
        (h, seqAcc ++ seqConcat ((ls.takeWhile
            (fun x => !isHeaderLine x)).map pyStrip))
          :: splitRecords (ls.dropWhile (fun x => !isHeaderLine x)) := by
  induction ls with
  | nil =>
    intro h seqAcc
    simp [fastaAux, seqConcat, splitRecords]
  | cons l ls ih =>
    intro h seqAcc
    cases hl : isHeaderLine l with
    | true =>
      rw [fastaAux, if_pos hl, ih (pyRstripNl l) []]
      rw [List.takeWhile_cons, List.dropWhile_cons]
      simp only [hl, Bool.not_true, Bool.false_eq_true, if_false,
        List.map_nil]
      rw [splitRecords, if_pos hl]
      simp [seqConcat]
    | false =>
      rw [fastaAux, if_neg (by simp [hl]), ih]
      rw [List.takeWhile_cons, List.dropWhile_cons]
      simp only [hl, Bool.not_false, if_true, List.map_cons]
      rw [seqConcat_cons, List.append_assoc]

lemma fastaAux_none (ls : List (List Char)) :
    ∀ seqAcc : List Char, fastaAux none seqAcc ls = splitRecords ls := by
  induction ls with
  | nil =>
    intro seqAcc
    simp [fastaAux, splitRecords]
  | cons l ls ih =>
    intro seqAcc
    cases hl : isHeaderLine l with
    | true =>
      rw [fastaAux, if_pos hl, fastaAux_some ls (pyRstripNl l) [],
        splitRecords, if_pos hl]
      simp
    | false =>
      rw [fastaAux, if_neg (by simp [hl]), ih, splitRecords,
        if_neg (by simp [hl])]

lemma fastaAux_length (ls : List (List Char)) :
    ∀ (hdr : Option (List Char)) (seqAcc : List Char),
      (fastaAux hdr seqAcc ls).length =
        ls.countP isHeaderLine +
          (match hdr with | some _ => 1 | none => 0) := by
  induction ls with
  | nil =>
    intro hdr seqAcc
    cases hdr <;> simp [fastaAux, List.countP_nil]
  | cons l ls ih =>
    intro hdr seqAcc
    cases hl : isHeaderLine l with
    | true =>
      cases hdr with
      | some hh =>
        rw [fastaAux, if_pos hl, List.length_append,
          ih (some (pyRstripNl l)) [], List.countP_cons]
        simp [hl]
        omega
      | none =>
        rw [fastaAux, if_pos hl, List.length_append,
          ih (some (pyRstripNl l)) [], List.countP_cons]
        simp [hl]
    | false =>
      cases hdr with
      | some hh =>
        rw [fastaAux, if_neg (by simp [hl]), ih (some hh) _,
          List.countP_cons]
        simp [hl]
      | none =>
        rw [fastaAux, if_neg (by simp [hl]), ih none _,
          List.countP_cons]
        simp [hl]

lemma fastaAux_none_no_header (ls : List (List Char))
    (h : ∀ l ∈ ls, isHeaderLine l = false) :
    ∀ seqAcc : List Char, fastaAux none seqAcc ls = [] := by
  induction ls with
  | nil => intro seqAcc; rfl
  | cons l ls ih =>
    intro seqAcc
    rw [fastaAux, if_neg (by simp [h l (by simp)])]
    exact ih (fun x hx => h x (by simp [hx])) _

/-! ### Canonical accessions are found whole and left unchanged -/

lemma canonical_matchAt {ls ds vs : List Char}
    (hls : ls ≠ []) (hlen3 : ls.length ≤ 3)
    (hup : ∀ c ∈ ls, c.isUpper = true)
    (hds : ds ≠ []) (hdig : ∀ c ∈ ds, c.isDigit = true)
    (hvs : vs ≠ []) (hvdig : ∀ c ∈ vs, c.isDigit = true) :
    matchAt (ls ++ '_' :: (ds ++ '.' :: vs)) =
      some (ls ++ '_' :: (ds ++ '.' :: vs)) := by
  have htake : (ls ++ '_' :: (ds ++ '.' :: vs)).take ls.length = ls :=
    List.take_left ls _
  have hdrop : (ls ++ '_' :: (ds ++ '.' :: vs)).drop ls.length =
      '_' :: (ds ++ '.' :: vs) := List.drop_left ls _
  have hvst : vs.takeWhile Char.isDigit = vs := takeWhile_all_eq hvdig
  have hmk : matchAtK ls.length (ls ++ '_' :: (ds ++ '.' :: vs)) =
      some (ls ++ '_' :: (ds ++ '.' :: vs)) := by
    have hlen : ((ls ++ '_' :: (ds ++ '.' :: vs)).take ls.length).length =
        ls.length := by rw [htake]
    have hall : ((ls ++ '_' :: (ds ++ '.' :: vs)).take
        ls.length).all Char.isUpper = true := by
      rw [htake]
      exact List.all_eq_true.mpr hup
    have hvs2 : vs.takeWhile Char.isDigit ≠ [] := by
      rw [hvst]
      exact hvs
    have h0 := matchAtK_intro hlen hall hdrop hds hdig hvs2
    rw [htake, hvst] at h0
    exact h0
  have hk : ls.length = 1 ∨ ls.length = 2 ∨ ls.length = 3 := by
    have h1 : 0 < ls.length := List.length_pos.mpr hls
    omega
  unfold matchAt
  rcases hk with hk | hk | hk
  · rw [matchAtK_none_of_underscore hdrop (by omega),
      matchAtK_none_of_underscore hdrop (by omega)]
    rw [hk] at hmk
    rw [hmk]
  · rw [matchAtK_none_of_underscore hdrop (by omega)]
    rw [hk] at hmk
    rw [hmk]
  · rw [hk] at hmk
    rw [hmk]

lemma canonical_reSearch {ls ds vs : List Char}
    (hls : ls ≠ []) (hlen3 : ls.length ≤ 3)
    (hup : ∀ c ∈ ls, c.isUpper = true)
    (hds : ds ≠ []) (hdig : ∀ c ∈ ds, c.isDigit = true)
    (hvs : vs ≠ []) (hvdig : ∀ c ∈ vs, c.isDigit = true) :
    reSearch (ls ++ '_' :: (ds ++ '.' :: vs)) =
      some (ls ++ '_' :: (ds ++ '.' :: vs)) := by
  have hm := canonical_matchAt hls hlen3 hup hds hdig hvs hvdig
  cases ls with
  | nil => exact absurd rfl hls
  | cons c lt =>
    rw [List.cons_append] at hm ⊢
    exact reSearch_cons_of_matchAt hm

/-! ### Claim theorems -/

/-- Claim C1: a FASTA record is kept exactly when its extracted versioned
accession is present and in the versioned target set, or `ignore_version`
is on and its extracted unversioned accession is present and in the
unversioned target set; otherwise it is not kept. -/
theorem extract_match_decision (twv tnv : List (List Char)) (iv : Bool)
    (header : List Char) :
    recordMatches twv tnv iv header = true ↔
      ((∃ a, (extract_header_accession header).1 = some a ∧ a ∈ twv) ∨
       (iv = true ∧
        ∃ b, (extract_header_accession header).2 = some b ∧ b ∈ tnv)) := by
  rcases extract_cases header with hE | ⟨acc, c, t, hE, hacc, hup⟩
  · simp [recordMatches, hE, truthyStr]
  · have hne : acc ≠ [] := by rw [hacc]; simp
    have hpd : preDot acc ≠ [] := by
      rw [hacc]
      exact preDot_cons_ne_nil (isUpper_beq_dot_eq_false hup)
    by_cases h1 : acc ∈ twv
    · simp [recordMatches, hE, truthyStr, hne, h1]
    · by_cases h2 : preDot acc ∈ tnv
      · cases iv <;> simp [recordMatches, hE, truthyStr, hne, hpd, h1, h2]
      · cases iv <;> simp [recordMatches, hE, truthyStr, hne, hpd, h1, h2]

/-- Claim C2: each non-blank, non-`#` stripped line is handled by the
three strategies in order, stopping at the first success; blank and
comment lines contribute nothing; a non-blank line always yields a
candidate (strategy 3 is total), so no line fails. -/
theorem parse_line_strategy_order (raw : List Char) (st : Targets) :
    processLine raw st =
      (if pyStrip raw = [] ∨ (pyStrip raw).head? = some '#' then st
       else
         match lineCandidate (pyStrip raw) with
         | some c => addAcc c st
         | none => st) ∧
    (pyStrip raw ≠ [] → ∃ m, lineCandidate (pyStrip raw) = some m) := by
  refine ⟨processLine_eq raw st, fun hne => ?_⟩
  cases hp : pyStrip raw with
  | nil => exact absurd hp hne
  | cons c t => exact lineCandidate_isSome (pyStrip_head_not_space hp)

/-- Claim C3: the accession extractor strips a leading `>`, searches the
canonical pattern, and on failure re-searches the cleaned first
whitespace token (bars stripped, spaces underscored); if both fail it
returns `(none, none)`. -/
theorem extract_algorithm_cases (header : List Char) :
    (∀ acc, reSearch (stripGt header) = some acc →
      extract_header_accession header = (some acc, some (preDot acc))) ∧
    (∀ acc, reSearch (stripGt header) = none →
      reSearch (underscoreSpaces (stripBar (firstTok (stripGt header)))) =
        some acc →
      extract_header_accession header = (some acc, some (preDot acc))) ∧
    (reSearch (stripGt header) = none →
      reSearch (underscoreSpaces (stripBar (firstTok (stripGt header)))) =
        none →
      extract_header_accession header = (none, none)) := by
  refine ⟨fun acc h1 => ?_, fun acc h1 h2 => ?_, fun h1 h2 => ?_⟩
  · simp only [extract_header_accession, h1]
  · simp only [extract_header_accession, h1, h2]
  · simp only [extract_header_accession, h1, h2]

/-- Claim C4: a dotted normalized candidate enters the versioned set in
full with its pre-dot part in the unversioned set; an undotted one enters
only the unversioned set; every versioned entry has its pre-dot prefix in
the unversioned set, and that prefix is an initial segment of it. -/
theorem add_candidate_sets (acc : List Char) (st : Targets)
    (lines : List (List Char)) :
    (pyStrip acc ≠ [] → '.' ∈ normalizeAcc acc →
      addAcc acc st = (List.insert (normalizeAcc acc) st.1,
        List.insert (preDot (normalizeAcc acc)) st.2)) ∧
    (pyStrip acc ≠ [] → '.' ∉ normalizeAcc acc →
      addAcc acc st = (st.1, List.insert (normalizeAcc acc) st.2)) ∧
    (∀ v ∈ (parse_targets lines).1,
      preDot v ∈ (parse_targets lines).2 ∧ ∃ rest, v = preDot v ++ rest) := by
  refine ⟨fun hne hdot => addAcc_dot st hne hdot,
    fun hne hdot => addAcc_nodot st hne hdot, fun v hv => ⟨?_, ?_⟩⟩
  · exact parse_inv lines ([], []) (by simp) v hv
  · exact ⟨v.dropWhile (fun c => !(c == '.')),
      (List.takeWhile_append_dropWhile _ _).symm⟩

/-- Claim C5: the record reader emits one pair per `>` line, with the
rstripped header and the stripped concatenation of the following
non-header lines; the final record is emitted at end of stream; empty or
header-free input yields no records. -/
theorem fasta_records_contract (lines : List (List Char)) :
    fasta_records lines = splitRecords lines ∧
    (fasta_records lines).length = lines.countP isHeaderLine ∧
    fasta_records ([] : List (List Char)) = [] ∧
    ((∀ l ∈ lines, isHeaderLine l = false) → fasta_records lines = []) := by
  refine ⟨fastaAux_none lines [], ?_, rfl,
    fun h => fastaAux_none_no_header lines h []⟩
  have hl := fastaAux_length lines none []
  simpa [fasta_records] using hl

/-- Claim C6: with the single list target `NC_001806.1`, a header
containing `NC_001806.2` matches under version-insensitive matching and
does not match with `ignore_version` off. -/
theorem version_insensitive_example :
    (recordMatches (parse_targets ["NC_001806.1".toList]).1
        (parse_targets ["NC_001806.1".toList]).2 true
        ">NC_001806.2 Human herpesvirus 1".toList = true) ∧
    (recordMatches (parse_targets ["NC_001806.1".toList]).1
        (parse_targets ["NC_001806.1".toList]).2 false
        ">NC_001806.2 Human herpesvirus 1".toList = false) := by
  decide

/-- A record never matches against an empty versioned set when
`ignore_version` is off. -/
lemma recordMatches_empty_false (tnv : List (List Char))
    (hdr : List Char) : recordMatches [] tnv false hdr = false := by
  simp [recordMatches]

/-- Claim C7: if no list line yields a dotted normalized candidate, the
versioned target set is empty, and with `ignore_version` off no record is
ever kept. -/
theorem no_dot_targets_never_match (listLines : List (List Char))
    (h : ∀ l ∈ listLines, ∀ c, lineCandidate (pyStrip l) = some c →
      '.' ∉ normalizeAcc c) :
    (parse_targets listLines).1 = [] ∧
    ∀ fastaLines : List (List Char),
      (filter_counts listLines fastaLines false).1 = 0 := by
  have hfst : (parse_targets listLines).1 = [] := parse_fst listLines h ([], [])
  refine ⟨hfst, fun fastaLines => ?_⟩
  simp only [filter_counts, hfst]
  apply List.countP_eq_zero.mpr
  intro r hr
  rw [recordMatches_empty_false]
  simp

theorem no_dot_targets_never_match_witness :
    (parse_targets ["NC_001806".toList]).1 = [] ∧
    ∀ fastaLines : List (List Char),
      (filter_counts ["NC_001806".toList] fastaLines false).1 = 0 :=
  no_dot_targets_never_match ["NC_001806".toList] (by
    intro l hl c hc
    rw [List.mem_singleton] at hl
    subst hl
    have h2 : lineCandidate (pyStrip "NC_001806".toList) =
        some "NC_001806".toList := by decide
    rw [h2, Option.some.injEq] at hc
    subst hc
    decide)

/-- Claim C8: an already-canonical accession passes normalization
unchanged; `_add` puts exactly it into the versioned set and its pre-dot
prefix into the unversioned set. -/
theorem canonical_idempotent (s : List Char) (st : Targets)
    (h : isCanonicalAcc s) :
    normalizeAcc s = s ∧
    addAcc s st = (List.insert s st.1, List.insert (preDot s) st.2) := by
  obtain ⟨ls, ds, vs, hs, hls, hlen3, hup, hds, hdig, hvs, hvdig⟩ := h
  subst hs
  have hnospace : ∀ c ∈ ls ++ '_' :: (ds ++ '.' :: vs),
      pyIsSpace c = false := by
    intro c hc
    rcases List.mem_append.mp hc with h1 | h1
    · exact isUpper_not_space (hup c h1)
    · rcases List.mem_cons.mp h1 with rfl | h2
      · decide
      · rcases List.mem_append.mp h2 with h3 | h3
        · exact isDigit_not_space (hdig c h3)
        · rcases List.mem_cons.mp h3 with rfl | h4
          · decide
          · exact isDigit_not_space (hvdig c h4)
  have hnobar : ('|' : Char) ∉ ls ++ '_' :: (ds ++ '.' :: vs) := by
    intro hc
    rcases List.mem_append.mp hc with h1 | h1
    · exact absurd (hup _ h1) (by decide)
    · rcases List.mem_cons.mp h1 with h2 | h2
      · exact absurd h2 (by decide)
      · rcases List.mem_append.mp h2 with h3 | h3
        · exact absurd (hdig _ h3) (by decide)
        · rcases List.mem_cons.mp h3 with h4 | h4
          · exact absurd h4 (by decide)
          · exact absurd (hvdig _ h4) (by decide)
  have hsearch := canonical_reSearch hls hlen3 hup hds hdig hvs hvdig
  have hnorm : normalizeAcc (ls ++ '_' :: (ds ++ '.' :: vs)) =
      ls ++ '_' :: (ds ++ '.' :: vs) := by
    simp only [normalizeAcc]
    rw [pyStrip_eq_self hnospace,
      underscoreSpaces_eq_self (fun c hc => beq_space_eq_false (hnospace c hc)),
      if_neg hnobar, hsearch]
  refine ⟨hnorm, ?_⟩
  have hne : pyStrip (ls ++ '_' :: (ds ++ '.' :: vs)) ≠ [] := by
    rw [pyStrip_eq_self hnospace]
    cases ls with
    | nil => exact absurd rfl hls
    | cons c lt => simp
  have hdot2 : ('.' : Char) ∈ normalizeAcc (ls ++ '_' :: (ds ++ '.' :: vs)) := by
    rw [hnorm]
    simp
  rw [addAcc_dot _ hne hdot2, hnorm]

theorem canonical_idempotent_witness :
    normalizeAcc "NC_001806.1".toList = "NC_001806.1".toList ∧
    addAcc "NC_001806.1".toList (([], []) : Targets) =
      (List.insert "NC_001806.1".toList ([] : List (List Char)),
       List.insert (preDot "NC_001806.1".toList)
         ([] : List (List Char))) :=
  canonical_idempotent "NC_001806.1".toList ([], [])
    ⟨"NC".toList, "001806".toList, "1".toList, by decide, by decide,
      by decide, by decide, by decide, by decide, by decide, by decide⟩

/-- Claim C9: a missing list file, unwritable output, or missing FASTA
file makes the run fail with an I/O error, and the summary is printed
only when the whole pass succeeds — never in a fatal case. -/
theorem fatal_io_aborts_before_summary
    (fastaFile listFile : Option (List (List Char))) (outW iv : Bool)
    (h : listFile = none ∨ fastaFile = none ∨ outW = false) :
    (∃ e, filterFastaIO fastaFile listFile outW iv = Except.error e) ∧
    mainSummary fastaFile listFile outW iv = none := by
  have herr : ∃ e, filterFastaIO fastaFile listFile outW iv =
      Except.error e := by
    rcases h with rfl | rfl | rfl
    · exact ⟨(), rfl⟩
    · cases listFile with
      | none => exact ⟨(), rfl⟩
      | some ll =>
        cases outW with
        | false => exact ⟨(), rfl⟩
        | true => exact ⟨(), rfl⟩
    · cases listFile with
      | none => exact ⟨(), rfl⟩
      | some ll => exact ⟨(), rfl⟩
  obtain ⟨e, he⟩ := herr
  refine ⟨⟨e, he⟩, ?_⟩
  unfold mainSummary
  rw [he]

theorem fatal_io_aborts_before_summary_witness :
    (∃ e, filterFastaIO none none false true = Except.error e) ∧
    mainSummary none none false true = none :=
  fatal_io_aborts_before_summary none none false true (Or.inl rfl)

/-- Claim C10: the fallback over the cleaned first token can never find a
match when the whole-header search failed (the token is an infix of the
header), so the extractor is equivalent to one search over the header
with the leading `>` stripped, and a reached fallback returns
`(none, none)`. -/
theorem extract_fallback_redundant (header : List Char) :
    extract_header_accession header =
      (match reSearch (stripGt header) with
       | some acc => (some acc, some (preDot acc))
       | none => ((none : Option (List Char)),
           (none : Option (List Char)))) ∧
    (reSearch (stripGt header) = none →
      extract_header_accession header = (none, none)) := by
  have key : reSearch (stripGt header) = none →
      reSearch (underscoreSpaces (stripBar (firstTok (stripGt header)))) =
        none := by
    intro hh
    obtain ⟨⟨a, b, hab⟩, hnos⟩ := firstTok_parts (stripGt header)
    obtain ⟨a2, b2, hab2⟩ := stripBar_parts (firstTok (stripGt header))
    have hnos2 : ∀ c ∈ stripBar (firstTok (stripGt header)),
        (c == ' ') = false :=
      fun c hc => beq_space_eq_false (hnos c (mem_stripBar hc))
    rw [underscoreSpaces_eq_self hnos2]
    apply reSearch_infix_none (a ++ a2) (b2 ++ b)
    have heq : (a ++ a2) ++ stripBar (firstTok (stripGt header)) ++
        (b2 ++ b) = stripGt header := by
      conv_rhs => rw [hab]
      conv_rhs => rw [hab2]
      simp [List.append_assoc]
    rw [heq]
    exact hh
  constructor
  · cases h1 : reSearch (stripGt header) with
    | some acc => simp only [extract_header_accession, h1]
    | none => simp only [extract_header_accession, h1, key h1]
  · intro h1
    simp only [extract_header_accession, h1, key h1]
